import Mathlib

/-!
Verification development for the incremental ChatGPT-export ingestion,
checkpointing, batching and weekly-scheduling engine of
`chatgpt_to_notion.py` / `daily_chatgpt_summary.py`.

Conventions of the shallow embedding:
* Python strings are modelled as `Str := List Char`.
* Python `int`/timestamps are modelled as `Int` (timestamps are seconds
  since the epoch; fractional seconds play no role in any claim).
* Calendar dates are modelled as epoch-day numbers (`Int`); the JST
  conversion `datetime.fromtimestamp(ts, utc).astimezone(JST).date()`
  becomes `(ts + 9*3600).fdiv 86400`, and ISO date strings compare the
  same way their epoch-day numbers do.
* Python dicts that are iterated in insertion order are modelled as
  association lists with first-key-wins lookup and in-place update.
* `None`-able values are `Option`s; Python truthiness of strings
  (`None` and `""` are falsy) is modelled explicitly.
-/

/-- Python strings are modelled as lists of characters. -/
abbrev Str : Type := List Char

/-- Conversion from a Lean string literal to the embedding's string type. -/
def toStr (s : String) : Str := s.data

/-- Characters stripped by Python's `str.strip()` (the ASCII whitespace
subset; no input of the development contains other Unicode whitespace). -/
def pySpace (c : Char) : Bool :=
  c = ' ' || c = '\t' || c = '\n' || c = '\r' || c = Char.ofNat 11 || c = Char.ofNat 12

/-- Python `str.strip()`: drop leading and trailing whitespace. -/
def pyStrip (s : Str) : Str :=
  ((List.dropWhile pySpace s).reverse.dropWhile pySpace).reverse

/-- Python `text.split('\n')` (note `"".split('\n') == [""]`). -/
def splitLines : Str → List Str
  | [] => [[]]
  | c :: rest =>
    if c = '\n' then [] :: splitLines rest
    else
      match splitLines rest with
      | l :: ls => (c :: l) :: ls
      | [] => [[c]]

/-- Each line followed by a newline, concatenated; this is the shape of the
chunk accumulator `current_chunk` in the segmenter loop. -/
def termJoin (g : List Str) : Str :=
  (g.map (fun l => l ++ [('\n' : Char)])).flatten

/-- First-match association-list lookup (Python `dict` access). -/
def assocFind {α : Type} (l : List (Str × α)) (k : Str) : Option α :=
  match l with
  | [] => none
  | (k', v) :: rest => if k' = k then some v else assocFind rest k

/-- Association-list update: replace the first binding of the key in place,
else append (Python `dict` assignment, preserving insertion order). -/
def assocSet {α : Type} (l : List (Str × α)) (k : Str) (v : α) : List (Str × α) :=
  match l with
  | [] => [(k, v)]
  | (k', v') :: rest => if k' = k then (k, v) :: rest else (k', v') :: assocSet rest k v

/-- Insertion sort step for day keys. -/
def insertSorted (x : Int) : List Int → List Int
  | [] => [x]
  | y :: ys => if x ≤ y then x :: y :: ys else y :: insertSorted x ys

/-- Python `sorted` on the (integer-modelled) day keys. -/
def sortInts (l : List Int) : List Int := l.foldr insertSorted []

/-! ### Export data model and the event normalizer (`iter_messages`). -/

/-- A message's `content` field: a dict with a `parts` list (non-string
parts modelled as `none`), a bare string, or some other dict shape
(treated by the source as having no extractable text). -/
inductive Content : Type
  | parts (ps : List (Option Str))
  | cstr (s : Str)
  | other
deriving DecidableEq

/-- A raw message record of the export: author role, content, creation
timestamp and message id, each possibly missing. -/
structure RawMsg where
  role : Option Str
  content : Option Content
  create_time : Option Int
  mid : Option Str
deriving DecidableEq

/-- A node of the `mapping` graph: its map key and optional message. -/
structure MapNode where
  nodeId : Str
  message : Option RawMsg
deriving DecidableEq

/-- One conversation record of the export (graph shape in `mapping`,
flat-list shape in `messages`). -/
structure Conv where
  id : Option Str
  conversation_id : Option Str
  title : Option Str
  mapping : Option (List MapNode)
  messages : List RawMsg
deriving DecidableEq

/-- A normalized message event as yielded by `iter_messages`:
`(conv_id, role, text, ts, mid, title)`. -/
structure Event where
  cid : Str
  role : Str
  text : Str
  ts : Option Int
  mid : Str
  title : Str
deriving DecidableEq

/-- Python truthiness of an optional string (`None` and `""` are falsy). -/
def pyTruthyS : Option Str → Bool
  | some s => !s.isEmpty
  | none => false

/-- Python `a or b` where `a` is an optional string and `b` a string. -/
def pyOrS (a : Option Str) (b : Str) : Str :=
  match a with
  | some s => if s.isEmpty then b else s
  | none => b

/-- `conv.get("id") or conv.get("conversation_id") or "(unknown)"`. -/
def convIdOf (c : Conv) : Str :=
  pyOrS c.id (pyOrS c.conversation_id (toStr "(unknown)"))

/-- Python truthiness of the `content` value (`None`, `""` falsy; a
`parts` dict and other non-empty dicts truthy). -/
def contentFalsy : Option Content → Bool
  | none => true
  | some (Content.cstr s) => s.isEmpty
  | some _ => false

/-- Join a list of strings with newline separators (`"\n".join`). -/
def joinNl : List Str → Str
  | [] => []
  | [s] => s
  | s :: rest => s ++ [('\n' : Char)] ++ joinNl rest

/-- Text extraction from `content`: join the string parts with newlines,
or take the bare string; other shapes yield no text. -/
def msgText : Option Content → Option Str
  | some (Content.parts ps) => some (joinNl (ps.filterMap id))
  | some (Content.cstr s) => some s
  | _ => none

/-- Deterministic stand-in for CPython's `hash((role, text, ts))` as used
for synthesized legacy message ids. Its concrete values are irrelevant to
every claim; what matters is that it is a fixed function of
`(role, text, ts)` — which models the hash within a single interpreter
run (CPython salts string hashes per process). -/
def pyHash3 (r t : Str) (ts : Option Int) : Int :=
  (r.foldl (fun a c => a * 131 + (c.toNat : Int)) 7) * 1000003 +
  (t.foldl (fun a c => a * 131 + (c.toNat : Int)) 7) * 8191 +
  (match ts with
   | some v => 2 * v + 1
   | none => 0)

/-- Decimal rendering of an integer (for synthesized ids and day keys). -/
def intStr (i : Int) : Str := (toString i).data

/-- One `mapping` node of `iter_messages` (lines 103-118): skip when the
role or content is falsy or the extracted text is empty; otherwise yield
the event, synthesizing `mid = "mapping-" + node_id` when the message id
is falsy. -/
def nodeEvent (cid title : Str) (n : MapNode) : Option Event :=
  match n.message with
  | none => none
  | some msg =>
    if !pyTruthyS msg.role then none
    else if contentFalsy msg.content then none
    else
      match msgText msg.content with
      | none => none
      | some text =>
        if text.isEmpty then none
        else some ⟨cid, (msg.role.getD []), text, msg.create_time,
          pyOrS msg.mid (toStr "mapping-" ++ n.nodeId), title⟩

/-- One legacy `messages` entry of `iter_messages` (lines 121-134): yield
iff role and text are truthy, synthesizing
`mid = "legacy-" + hash((role, text, ts))` when the message id is falsy. -/
def legacyEvent (cid title : Str) (m : RawMsg) : Option Event :=
  match msgText m.content with
  | none => none
  | some text =>
    if !pyTruthyS m.role || text.isEmpty then none
    else some ⟨cid, (m.role.getD []), text, m.create_time,
      pyOrS m.mid (toStr "legacy-" ++ intStr (pyHash3 (m.role.getD []) text m.create_time)),
      title⟩

/-- `iter_messages` (lines 94-134): the `mapping` shape takes precedence
when truthy (a non-empty dict); otherwise fall back to the `messages`
list. -/
def iterMessages (c : Conv) : List Event :=
  match c.mapping with
  | some nodes =>
    if nodes.isEmpty then c.messages.filterMap (legacyEvent (convIdOf c) (pyOrS c.title []))
    else nodes.filterMap (nodeEvent (convIdOf c) (pyOrS c.title []))
  | none => c.messages.filterMap (legacyEvent (convIdOf c) (pyOrS c.title []))

/-! ### Day bucketing (`ts_to_day`, `build_daily_raw`) and the checkpoint
store (`load_state` / `save_state` / the commit loop in `main`). -/

/-- Epoch-day number of a timestamp converted to JST
(`datetime.fromtimestamp(ts, utc).astimezone(JST).date()`). -/
def jstDayOf (ts : Int) : Int := (ts + 9 * 3600).fdiv 86400

/-- `ts_to_day` (lines 137-150) over epoch days: a missing timestamp maps
to today (JST); otherwise keep the JST date iff it is on or after the
inception floor `from_date`, else drop (`None`). -/
def tsToDay (ts : Option Int) (fromDay today : Int) : Option Int :=
  match ts with
  | none => some today
  | some t => if jstDayOf t ≥ fromDay then some (jstDayOf t) else none

/-- The per-conversation checkpoint (`state.json`): high-water-mark map
`conv_hwm` and seen-message-id map `seen`. -/
structure CkState where
  hwm : List (Str × Int)
  seen : List (Str × List Str)
deriving DecidableEq

/-- `state["conv_hwm"].get(conv_id, -1)`. -/
def getHwm (st : CkState) (c : Str) : Int := (assocFind st.hwm c).getD (-1)

/-- `set(state["seen"].get(conv_id, []))` (kept as a list). -/
def getSeen (st : CkState) (c : Str) : List Str := (assocFind st.seen c).getD []

/-- The first `continue` of the bucketing loop:
`ts is not None and ts <= last_ts`. -/
def tsLeSkip : Option Int → Int → Bool
  | some t, lastTs => t ≤ lastTs
  | none, _ => false

/-- Role label of a bucket line (`"ユーザー"`, `"アシスタント"`, or the raw role). -/
def roleLabel (r : Str) : Str :=
  if r = toStr "user" then toStr "ユーザー"
  else if r = toStr "assistant" then toStr "アシスタント"
  else r

/-- One bucket line: `f"[{prefix}] {title}｜{text.strip()}"`. -/
def bucketLine (e : Event) : Str :=
  toStr "[" ++ roleLabel e.role ++ toStr "] " ++ e.title ++ toStr "｜" ++ pyStrip e.text

/-- `buckets[day].append(line)` on an insertion-ordered association list. -/
def bucketsAdd (bs : List (Int × List Str)) (day : Int) (line : Str) : List (Int × List Str) :=
  match bs with
  | [] => [(day, [line])]
  | (d, ls) :: rest =>
    if d = day then (d, ls ++ [line]) :: rest else (d, ls) :: bucketsAdd rest day line

/-- `new_seen.add(mid)` (a set: no duplicate insertion). -/
def insertNew (ns : List Str) (x : Str) : List Str :=
  if ns.contains x then ns else ns ++ [x]

/-- `if ts is not None and ts > max_ts: max_ts = ts`. -/
def updMax (ts : Option Int) (m : Int) : Int :=
  match ts with
  | some t => if t > m then t else m
  | none => m

/-- The body of the bucketing loop of `build_daily_raw` (lines 178-195) for
one event: skip when the timestamp is at or below the high-water mark,
when the message id is already seen, or when the day falls below the
inception floor; otherwise append the line to the day bucket, mark the id
newly seen and update the running maximum timestamp. -/
def stepMsg (fromDay today lastTs : Int) (seenSet : List Str)
    (acc : List (Int × List Str) × List Str × Int) (e : Event) :
    List (Int × List Str) × List Str × Int :=
  if tsLeSkip e.ts lastTs then acc
  else if seenSet.contains e.mid then acc
  else
    match tsToDay e.ts fromDay today with
    | none => acc
    | some day => (bucketsAdd acc.1 day (bucketLine e), insertNew acc.2.1 e.mid, updMax e.ts acc.2.2)

/-- The bucketing loop folded over a conversation's events. -/
def procEvents (fromDay today lastTs : Int) (seenSet : List Str) :
    List Event → List (Int × List Str) × List Str × Int →
      List (Int × List Str) × List Str × Int
  | [], acc => acc
  | e :: es, acc => procEvents fromDay today lastTs seenSet es (stepMsg fromDay today lastTs seenSet acc e)

/-- One conversation of `build_daily_raw` (lines 170-198), threading the
global buckets and recording `progress[conv_id] = (new_seen, max_ts)`
when any message was newly bucketed. -/
def buildConvStep (st : CkState) (fromDay today : Int)
    (acc : List (Int × List Str) × List (Str × (List Str × Int))) (conv : Conv) :
    List (Int × List Str) × List (Str × (List Str × Int)) :=
  ((procEvents fromDay today (getHwm st (convIdOf conv)) (getSeen st (convIdOf conv))
      (iterMessages conv) (acc.1, [], getHwm st (convIdOf conv))).1,
   if (procEvents fromDay today (getHwm st (convIdOf conv)) (getSeen st (convIdOf conv))
        (iterMessages conv) (acc.1, [], getHwm st (convIdOf conv))).2.1 ≠ [] then
     assocSet acc.2 (convIdOf conv)
       (procEvents fromDay today (getHwm st (convIdOf conv)) (getSeen st (convIdOf conv))
         (iterMessages conv) (acc.1, [], getHwm st (convIdOf conv))).2
   else acc.2)

/-- The truncation suffix `"\n…（長文のため途中まで）"`. -/
def truncSuffix : Str := toStr "\n…（長文のため途中まで）"

/-- Join with an explicit separator (`sep.join(lines)`). -/
def joinSep (sep : Str) : List Str → Str
  | [] => []
  | [s] => s
  | s :: rest => s ++ sep ++ joinSep sep rest

/-- The raw join of a day bucket: `"\n- " + "\n- ".join(lines)`. -/
def rawJoin (lines : List Str) : Str := toStr "\n- " ++ joinSep (toStr "\n- ") lines

/-- The final text of a day bucket (lines 200-205): the raw join, truncated
at `max_chars` with the truncation suffix when it exceeds the cap. -/
def capJoin (maxChars : Nat) (lines : List Str) : Str :=
  if (rawJoin lines).length > maxChars then (rawJoin lines).take maxChars ++ truncSuffix
  else rawJoin lines

/-- `build_daily_raw` (lines 153-206): the per-day raw texts and the run's
progress map. -/
def buildDailyRaw (convs : List Conv) (st : CkState) (fromDay today : Int) (maxChars : Nat) :
    List (Int × Str) × List (Str × (List Str × Int)) :=
  let r := convs.foldl (buildConvStep st fromDay today) ([], [])
  (r.1.map (fun b => (b.1, capJoin maxChars b.2)), r.2)

/-- The checkpoint commit of `main` (lines 1050-1055): extend each
conversation's seen set with the run's newly seen ids and raise its
high-water mark to the run's maximum timestamp when larger. -/
def commitState (st : CkState) (prog : List (Str × (List Str × Int))) : CkState :=
  prog.foldl (fun s e =>
    ⟨if e.2.2 > getHwm s e.1 then assocSet s.hwm e.1 e.2.2 else s.hwm,
     assocSet s.seen e.1 (getSeen s e.1 ++ e.2.1)⟩) st

/-- The state after one entry of the checkpoint-commit loop (the loop body
of `commitState`, named for the proofs). -/
def commitStep (st : CkState) (p : Str × (List Str × Int)) : CkState :=
  ⟨if p.2.2 > getHwm st p.1 then assocSet st.hwm p.1 p.2.2 else st.hwm,
   assocSet st.seen p.1 (getSeen st p.1 ++ p.2.1)⟩

/-! ### Run orchestrator: the daily publish loop of `main`
(lines 998-1058). -/

/-- Outcome of the daily section of one run: the checkpoint state after the
run, whether `save_state` was invoked, the successfully published days,
the day whose publish failed (if any), and the days for which a publish
was attempted at all. -/
structure DailyRun where
  state : CkState
  saved : Bool
  succDays : List Int
  failedDay : Option Int
  attempted : List Int
deriving DecidableEq

/-- The publish loop of `main` (lines 1002-1045): publish each day in
ascending order; on the first failure stop (the `raise SystemExit`),
recording the failing day; return
`(successful_days, first failure, attempted days)`. -/
def publishLoop (pub : Int → Bool) : List Int → List Int × Option Int × List Int
  | [] => ([], none, [])
  | d :: ds =>
    if pub d then
      ((publishLoop pub ds).1.cons d, (publishLoop pub ds).2.1, (publishLoop pub ds).2.2.cons d)
    else ([], some d, [d])

/-- Assemble the run outcome from the publish-loop result: on any failure
no commit happens (`raise SystemExit` precedes the state update);
otherwise the checkpoint is committed iff some day succeeded
(`if successful_days and not failed_days`). -/
def runDailyAux (st : CkState) (prog : List (Str × (List Str × Int)))
    (r : List Int × Option Int × List Int) : DailyRun :=
  match r.2.1 with
  | some d => ⟨st, false, r.1, some d, r.2.2⟩
  | none =>
    if r.1 = [] then ⟨st, false, r.1, none, r.2.2⟩
    else ⟨commitState st prog, true, r.1, none, r.2.2⟩

/-- The daily section of `main` (lines 872-1058): build the day buckets and
progress from the checkpoint, publish each day in sorted order with
fail-fast abort, and commit the checkpoint (`save_state`) only when some
day was published and none failed. -/
def runDaily (pub : Int → Bool) (convs : List Conv) (st : CkState)
    (fromDay today : Int) (maxChars : Nat) : DailyRun :=
  runDailyAux st (buildDailyRaw convs st fromDay today maxChars).2
    (publishLoop pub (sortInts ((buildDailyRaw convs st fromDay today maxChars).1.map Prod.fst)))

/-! ### Weekly digest scheduler (`should_create_weekly_report`, and the same
inline computation in `chatgpt_to_notion.main`). -/

/-- Python `date.weekday()` on an epoch-day number (Monday = 0; epoch day 0,
1970-01-01, was a Thursday, weekday 3). -/
def pyWeekday (d : Int) : Int := (d + 3) % 7

/-- The scheduler's "next Saturday" computation:
`next_saturday = last_date - timedelta(days=last_date.weekday()) + timedelta(days=5)`,
then `if next_saturday <= last_date: next_saturday += timedelta(days=7)`. -/
def nextSaturdayFrom (last : Int) : Int :=
  if last - pyWeekday last + 5 ≤ last then last - pyWeekday last + 5 + 7
  else last - pyWeekday last + 5

/-- `should_create_weekly_report` (`daily_chatgpt_summary.py` lines 189-217)
and the identical inline check in `chatgpt_to_notion.main` lines 1076-1091:
with a recorded last registration date, due iff today is on or after the
computed next Saturday; otherwise defer to the sufficient-data predicate
(`has_sufficient_weekly_data`, which the code makes always-true, kept here
as a black-box boolean). -/
def weeklyShouldCreate (lastReg : Option Int) (today : Int) (sufficient : Bool) : Bool :=
  match lastReg with
  | some last => today ≥ nextSaturdayFrom last
  | none => sufficient

/-- The registration (filing) date chosen by `chatgpt_to_notion.main`
lines 1120-1145: with a prior registration, the Sunday after the computed
next Saturday; without one, the Sunday after this week's Friday, unless
today is that Friday (`return`, modelled as `none`). -/
def weeklyFilingDateMain (origLast : Option Int) (today : Int) : Option Int :=
  match origLast with
  | some l => some (nextSaturdayFrom l + 1)
  | none =>
    let friday := today - pyWeekday today + 4
    if today = friday then none else some (friday + 2)

/-- The weekly branch of `chatgpt_to_notion.main` lines 1076-1178, reduced to
what it persists: the value passed to `save_last_weekly_report_date` (or
`none` when nothing is saved — not due, Friday skip, or failed publish). -/
def weeklyRunMain (origLast : Option Int) (today : Int) (sufficient : Bool)
    (publishOk : Bool) : Option Int :=
  if weeklyShouldCreate origLast today sufficient then
    match weeklyFilingDateMain origLast today with
    | none => none
    | some fd => if publishOk then some fd else none
  else none

/-- The weekly branch of `daily_chatgpt_summary.main` lines 402-487, reduced
to what it persists: on a successful publish it saves `today`
(`save_last_weekly_report_date(workdir, today)`, line 480). -/
def weeklyRunDailySummary (origLast : Option Int) (today : Int) (sufficient : Bool)
    (publishOk : Bool) : Option Int :=
  if weeklyShouldCreate origLast today sufficient then
    (if publishOk then some today else none)
  else none

/-! ### The checkpoint filter predicates (claim C3) and sample data. -/

/-- The per-event checkpoint filter exactly as the bucketing loop applies
it (lines 180-184): pass iff the timestamp is not at-or-below the
high-water mark AND the message id is not in the seen set. -/
def ckFilter (lastTs : Int) (seenSet : List Str) (ts : Option Int) (mid : Str) : Bool :=
  !(tsLeSkip ts lastTs) && !(seenSet.contains mid)

/-- Modelled from the spec's words for claim C3: pass iff the timestamp is
strictly greater than the high-water mark, OR the timestamp is absent and
the message id is not in the seen set. Kept for comparison with
`ckFilter`; the code implements `ckFilter`, not this. -/
def specC3Filter (lastTs : Int) (seenSet : List Str) (ts : Option Int) (mid : Str) : Bool :=
  (match ts with
   | some t => decide (t > lastTs)
   | none => false) ||
  (ts.isNone && !(seenSet.contains mid))

/-- Sample conversation: one `mapping` message (role `user`, text `hi`,
timestamp 10, source id `m`) in conversation `c`. -/
def convC3 : Conv :=
  ⟨some (toStr "c"), none, none,
    some [⟨toStr "n1", some ⟨some (toStr "user"), some (Content.parts [some (toStr "hi")]),
      some 10, some (toStr "m")⟩⟩], []⟩

/-- Checkpoint with high-water mark 5 and seen set `{m}` for
conversation `c`. -/
def stC3 : CkState := ⟨[(toStr "c", 5)], [(toStr "c", [toStr "m"])]⟩

/-- The event `iter_messages` yields for `convC3`. -/
def evC3 : Event := ⟨toStr "c", toStr "user", toStr "hi", some 10, toStr "m", []⟩

/-- Sample conversation with two `mapping` nodes whose messages agree on
(role, text, timestamp) and carry no source message id. -/
def convC4 : Conv :=
  ⟨some (toStr "c4"), none, none,
    some [⟨toStr "n1", some ⟨some (toStr "user"), some (Content.parts [some (toStr "hi")]),
            some 5, none⟩⟩,
          ⟨toStr "n2", some ⟨some (toStr "user"), some (Content.parts [some (toStr "hi")]),
            some 5, none⟩⟩], []⟩

/-- The first event `iter_messages` yields for `convC4`. -/
def evC4 : Event := ⟨toStr "c4", toStr "user", toStr "hi", some 5, toStr "mapping-n1", []⟩

/-- Sample event dated before any positive inception floor (timestamp 0,
i.e. JST epoch day 0). -/
def evC6 : Event := ⟨toStr "c", toStr "user", toStr "hi", some 0, toStr "m", []⟩

/-- Sample conversation: one `mapping` message on JST epoch day 1 with
source id `m1`, in conversation `c1`. -/
def convW : Conv :=
  ⟨some (toStr "c1"), none, some (toStr "T"),
    some [⟨toStr "n1", some ⟨some (toStr "user"), some (Content.parts [some (toStr "hi")]),
      some 86400, some (toStr "m1")⟩⟩], []⟩

/-- Two conversation records sharing the conversation id `dup`, each with
one timestamp-less message carrying its own source id. -/
def convDupA : Conv :=
  ⟨some (toStr "dup"), none, none,
    some [⟨toStr "a1", some ⟨some (toStr "user"), some (Content.parts [some (toStr "hi")]),
      none, some (toStr "m1")⟩⟩], []⟩

/-- Second conversation record with the same conversation id `dup`. -/
def convDupB : Conv :=
  ⟨some (toStr "dup"), none, none,
    some [⟨toStr "b1", some ⟨some (toStr "user"), some (Content.parts [some (toStr "ho")]),
      none, some (toStr "m2")⟩⟩], []⟩

/-! ### Batch segmenter: the chunk split and summarizer-call selection of
`main` (lines 890-938). -/

/-- The chunking loop of `main` (lines 911-923): accumulate lines into
`current_chunk`; when adding a line would push the accumulator past the
threshold (and it is non-empty), emit the stripped accumulator as a chunk
and restart from that line; finally emit the stripped remainder when it
is non-empty. -/
def splitChunksAux (maxC : Nat) : List Str → Str → List Str
  | [], cc => if (pyStrip cc).isEmpty then [] else [pyStrip cc]
  | l :: ls, cc =>
    if (cc ++ l).length > maxC && !cc.isEmpty then
      pyStrip cc :: splitChunksAux maxC ls (l ++ toStr "\n")
    else splitChunksAux maxC ls (cc ++ l ++ toStr "\n")

/-- The full chunk split of the combined text. -/
def splitChunks (maxC : Nat) (t : Str) : List Str :=
  splitChunksAux maxC (splitLines t) []

/-- The summarizer-call selection of `main` (lines 904-938): no call when
the stripped text is empty; one call per chunk when the text exceeds the
threshold; otherwise exactly one call with the full text. Returns the
list of call inputs. -/
def segmentCallInputs (maxC : Nat) (t : Str) : List Str :=
  if (pyStrip t).isEmpty then []
  else if t.length > maxC then splitChunks maxC t
  else [t]

/-- Lookup of a day's text in the day→text mapping. -/
def dailyLookup (daily : List (Int × Str)) (d : Int) : Str :=
  match daily with
  | [] => []
  | (k, v) :: rest => if k = d then v else dailyLookup rest d

/-- The combined day-prefixed text of `main` (lines 896-898): for each day
in sorted order append `"\n## {day}\n{daily_raw[day]}\n"` (the decimal
day-key rendering stands in for the ISO date string; its content plays no
role in the segmenter's behavior). -/
def combinedText (daily : List (Int × Str)) : Str :=
  (sortInts (daily.map Prod.fst)).foldl
    (fun acc d => acc ++ toStr "\n## " ++ intStr d ++ toStr "\n" ++ dailyLookup daily d ++
      toStr "\n") []

/-- Sample day text for the segmenter: a bucket-shaped text whose combined
form has length 51. -/
def c5text : Str := toStr "\n- " ++ List.replicate 41 'x'

/-! ### Document renderer (`markdown_to_notion_blocks` / `parse_rich_text`,
lines 325-535). -/

/-- A rich-text span: plain or bold content. -/
inductive Span : Type
  | plain (s : Str)
  | bold (s : Str)
deriving DecidableEq

/-- A rendered block: a heading of level 1-3 or a paragraph (an empty
spacer paragraph is `para [plain ""]`). -/
inductive Block : Type
  | heading (level : Nat) (spans : List Span)
  | para (spans : List Span)
deriving DecidableEq

/-- Scan for the lazy closing `**` of a bold span: the regex `\x2a\x2a(.*?)\x2a\x2a`
matches the earliest closing `**` with `.` not crossing a newline.
Returns the captured group and the rest after the closing marker. -/
def findClose : Str → Option (Str × Str)
  | '*' :: '*' :: rest => some ([], rest)
  | '\n' :: _ => none
  | c :: rest =>
    match findClose rest with
    | some (g, after) => some (c :: g, after)
    | none => none
  | [] => none

/-- The left-to-right scan of `parse_rich_text`: `pending` accumulates (in
reverse) the plain text before the next bold match; on `**` with a valid
close, flush the pending plain span (if non-empty), emit the bold span and
continue after it; on `**` without a close, step one character forward as
the regex engine does. The fuel argument only bounds the recursion; one
unit per consumed character suffices. -/
def parseRichGo : Nat → Str → Str → List Span
  | 0, pending, rest =>
    if (pending.reverse ++ rest).isEmpty then [] else [Span.plain (pending.reverse ++ rest)]
  | _ + 1, pending, [] => if pending.isEmpty then [] else [Span.plain pending.reverse]
  | fuel + 1, pending, '*' :: '*' :: rest =>
    (match findClose rest with
     | some (g, after) =>
       (if pending.isEmpty then [] else [Span.plain pending.reverse]) ++
         Span.bold g :: parseRichGo fuel [] after
     | none => parseRichGo fuel ('*' :: pending) ('*' :: rest))
  | fuel + 1, pending, c :: rest => parseRichGo fuel (c :: pending) rest

/-- `parse_rich_text` (lines 331-367): the bold/plain span decomposition,
falling back to one plain span holding the whole text when no span was
produced (which happens exactly for the empty string). -/
def parseRichText (t : Str) : List Span :=
  match parseRichGo (t.length + 1) [] t with
  | [] => [Span.plain t]
  | l => l

/-- Prefix test (`str.startswith`). -/
def sw (p s : Str) : Bool := List.isPrefixOf p s

/-- The spacer paragraph emitted twice after each heading. -/
def spacerPara : Block := Block.para [Span.plain []]

/-- Flush the accumulated text run as a paragraph when its strip is
non-empty (`if current_content.strip(): blocks.append(…)`). -/
def flushPara (blocks : List Block) (cc : Str) : List Block × Str :=
  if (pyStrip cc).isEmpty then (blocks, cc)
  else (blocks ++ [Block.para (parseRichText (pyStrip cc))], [])

/-- Handle one heading line: flush the pending run, then emit the heading
(dropping `dropN` marker characters, stripping, skipping an empty
heading) followed by two spacer paragraphs. -/
def headingBlocks (lvl : Nat) (dropN : Nat) (line : Str) (acc : List Block × Str) :
    List Block × Str :=
  let f := flushPara acc.1 acc.2
  let ht0 := pyStrip (line.drop dropN)
  let ht := if sw (toStr " ") ht0 then ht0.drop 1 else ht0
  if ht.isEmpty then f
  else (f.1 ++ [Block.heading lvl (parseRichText ht), spacerPara, spacerPara], f.2)

/-- The `"**次のアクション:**"` label that receives an extra blank line. -/
def nextActionStr : Str := toStr "**次のアクション:**"

/-- One line of the renderer loop of `markdown_to_notion_blocks`
(lines 373-523): exact-count heading classification, heading emission,
accumulation of non-blank lines, and the mid-stream flush when the pending
run exceeds `max_chars_per_block`. -/
def mdStep (maxB : Nat) (acc : List Block × Str) (line : Str) : List Block × Str :=
  if sw (toStr "###") line && !(sw (toStr "####") line) then headingBlocks 3 3 line acc
  else if sw (toStr "##") line && !(sw (toStr "###") line) then headingBlocks 2 2 line acc
  else if sw (toStr "#") line && !(sw (toStr "##") line) && !(sw (toStr "###") line) then
    headingBlocks 1 1 line acc
  else
    let cc :=
      if !(pyStrip line).isEmpty then
        (if sw nextActionStr (pyStrip line) then acc.2 ++ line ++ toStr "\n\n"
         else acc.2 ++ line ++ toStr "\n")
      else acc.2
    if cc.length > maxB then (acc.1 ++ [Block.para (parseRichText (pyStrip cc))], [])
    else (acc.1, cc)

/-- `markdown_to_notion_blocks` (lines 325-535): fold the renderer loop
over the lines and flush any remaining pending run. -/
def markdownToNotionBlocks (maxB : Nat) (text : Str) : List Block :=
  let r := (splitLines text).foldl (mdStep maxB) ([], [])
  if (pyStrip r.2).isEmpty then r.1
  else r.1 ++ [Block.para (parseRichText (pyStrip r.2))]

/-! ### Scaffolding predicates for the idempotence proof (claim C2). -/

/-- An event that a run against high-water mark `hwm2` and seen set `seen2`
skips without any state change: timestamp at or below the mark, message
id already seen, or date below the inception floor. -/
def SecondRunSkip (hwm2 : Int) (seen2 : List Str) (fromDay : Int) (e : Event) : Prop :=
  (∃ t : Int, e.ts = some t ∧ t ≤ hwm2) ∨ e.mid ∈ seen2 ∨
  (∃ t : Int, e.ts = some t ∧ jstDayOf t < fromDay)

/-- The per-conversation `(new_seen, max_ts)` pair of the bucketing loop,
started from empty buckets (the buckets do not influence it). -/
def convProg (st : CkState) (fromDay today : Int) (conv : Conv) : List Str × Int :=
  (procEvents fromDay today (getHwm st (convIdOf conv)) (getSeen st (convIdOf conv))
    (iterMessages conv) ([], [], getHwm st (convIdOf conv))).2

/-- The progress fold of `build_daily_raw` with the threaded buckets
removed. -/
def progStep (st : CkState) (fromDay today : Int)
    (pr : List (Str × (List Str × Int))) (conv : Conv) : List (Str × (List Str × Int)) :=
  if (convProg st fromDay today conv).1 ≠ [] then
    assocSet pr (convIdOf conv) (convProg st fromDay today conv)
  else pr

/-! ### Small list lemmas used by the claim proofs. -/

/-- The first element the publish loop's `dropWhile` leaves is a failing
day. -/
theorem dropWhileHeadFalse {α : Type} (p : α → Bool) :
    ∀ (l : List α) (d : α) (rest : List α), l.dropWhile p = d :: rest → p d = false := by
  intro l
  induction l with
  | nil => intro d rest h; simp [List.dropWhile] at h
  | cons x xs ih =>
    intro d rest h
    by_cases hx : p x
    · rw [List.dropWhile_cons_of_pos hx] at h; exact ih d rest h
    · rw [List.dropWhile_cons_of_neg hx] at h
      cases h
      simpa using hx

/-- If `dropWhile` consumes everything, the predicate held everywhere. -/
theorem dropWhileNilAll {α : Type} (p : α → Bool) :
    ∀ (l : List α), l.dropWhile p = [] → ∀ d ∈ l, p d = true := by
  intro l
  induction l with
  | nil => intro _ d hd; cases hd
  | cons x xs ih =>
    intro h d hd
    by_cases hx : p x
    · rw [List.dropWhile_cons_of_pos hx] at h
      rcases List.mem_cons.mp hd with rfl | hd'
      · exact hx
      · exact ih h d hd'
    · rw [List.dropWhile_cons_of_neg hx] at h; cases h

/-- Closed form of the publish loop: all days before the first failure are
published, and the loop stops at (and only attempts through) the first
failing day. -/
theorem publishLoop_eq (pub : Int → Bool) (l : List Int) :
    publishLoop pub l =
      (match l.dropWhile pub with
       | [] => (l, none, l)
       | d :: _ => (l.takeWhile pub, some d, l.takeWhile pub ++ [d])) := by
  induction l with
  | nil => rfl
  | cons x xs ih =>
    by_cases hx : pub x
    · rw [List.dropWhile_cons_of_pos hx, List.takeWhile_cons_of_pos hx]
      cases hd : xs.dropWhile pub with
      | nil => simp [publishLoop, hx, ih, hd]
      | cons d rest => simp [publishLoop, hx, ih, hd]
    · rw [List.dropWhile_cons_of_neg hx, List.takeWhile_cons_of_neg hx]
      simp [publishLoop, hx]

/-! ### Association-list and commit lemmas. -/

/-- Looking up the key just set finds the new value. -/
theorem assocFind_set_self {α : Type} (l : List (Str × α)) (k : Str) (v : α) :
    assocFind (assocSet l k v) k = some v := by
  induction l with
  | nil => simp [assocSet, assocFind]
  | cons h t ih =>
    obtain ⟨k', v'⟩ := h
    by_cases hk : k' = k
    · simp [assocSet, hk, assocFind]
    · simp [assocSet, hk, assocFind, ih]

/-- Setting one key leaves lookups of other keys unchanged. -/
theorem assocFind_set_ne {α : Type} (l : List (Str × α)) (k k' : Str) (v : α)
    (h : k ≠ k') : assocFind (assocSet l k v) k' = assocFind l k' := by
  induction l with
  | nil => simp [assocSet, assocFind, h]
  | cons hd t ih =>
    obtain ⟨k'', v''⟩ := hd
    by_cases hk : k'' = k
    · subst hk; simp [assocSet, assocFind, h]
    · simp [assocSet, hk, assocFind, ih]

/-- A `none` lookup means no binding of the key is present. -/
theorem assocFind_eq_none {α : Type} (l : List (Str × α)) (k : Str) :
    assocFind l k = none ↔ ∀ q ∈ l, q.1 ≠ k := by
  induction l with
  | nil =>
    constructor
    · intro _ q hq; cases hq
    · intro _; rfl
  | cons hd t ih =>
    obtain ⟨k', v'⟩ := hd
    constructor
    · intro h q hq
      by_cases hk : k' = k
      · simp only [assocFind, if_pos hk] at h; cases h
      · simp only [assocFind, if_neg hk] at h
        rcases List.mem_cons.mp hq with rfl | hq'
        · exact hk
        · exact (ih.mp h) q hq'
    · intro h
      have hk : k' ≠ k := h (k', v') (List.mem_cons_self _ _)
      simp only [assocFind, if_neg hk]
      exact ih.mpr (fun q hq => h q (List.mem_cons_of_mem _ hq))

/-- A successful lookup exhibits a binding of the key. -/
theorem assocFind_mem {α : Type} (l : List (Str × α)) (k : Str) (v : α)
    (h : assocFind l k = some v) : (k, v) ∈ l := by
  induction l with
  | nil => cases h
  | cons hd t ih =>
    obtain ⟨k', v'⟩ := hd
    by_cases hk : k' = k
    · subst hk
      simp only [assocFind, if_pos rfl] at h
      have hv := Option.some.inj h
      subst hv
      exact List.mem_cons_self _ _
    · simp only [assocFind, if_neg hk] at h
      exact List.mem_cons_of_mem _ (ih h)

/-- Unfolding one step of the checkpoint commit. -/
theorem commitState_cons (st : CkState) (p : Str × (List Str × Int))
    (ps : List (Str × (List Str × Int))) :
    commitState st (p :: ps) = commitState (commitStep st p) ps := rfl

/-- High-water mark after one commit entry. -/
theorem getHwm_commitStep (st : CkState) (p : Str × (List Str × Int)) (c : Str) :
    getHwm (commitStep st p) c =
      if p.1 = c then (if p.2.2 > getHwm st p.1 then p.2.2 else getHwm st c)
      else getHwm st c := by
  by_cases h2 : p.2.2 > getHwm st p.1
  · by_cases h1 : p.1 = c
    · subst h1
      rw [if_pos rfl, if_pos h2]
      show (assocFind (if p.2.2 > getHwm st p.1 then assocSet st.hwm p.1 p.2.2 else st.hwm)
        p.1).getD (-1) = p.2.2
      rw [if_pos h2, assocFind_set_self]
      rfl
    · rw [if_neg h1]
      show (assocFind (if p.2.2 > getHwm st p.1 then assocSet st.hwm p.1 p.2.2 else st.hwm)
        c).getD (-1) = getHwm st c
      rw [if_pos h2, assocFind_set_ne _ _ _ _ h1]
      rfl
  · have hx : (if p.2.2 > getHwm st p.1 then assocSet st.hwm p.1 p.2.2 else st.hwm) = st.hwm :=
      if_neg h2
    by_cases h1 : p.1 = c
    · subst h1
      rw [if_pos rfl, if_neg h2]
      show (assocFind (if p.2.2 > getHwm st p.1 then assocSet st.hwm p.1 p.2.2 else st.hwm)
        p.1).getD (-1) = getHwm st p.1
      rw [hx]
      rfl
    · rw [if_neg h1]
      show (assocFind (if p.2.2 > getHwm st p.1 then assocSet st.hwm p.1 p.2.2 else st.hwm)
        c).getD (-1) = getHwm st c
      rw [hx]
      rfl

/-- Seen set after one commit entry. -/
theorem getSeen_commitStep (st : CkState) (p : Str × (List Str × Int)) (c : Str) :
    getSeen (commitStep st p) c =
      if p.1 = c then getSeen st c ++ p.2.1 else getSeen st c := by
  by_cases h1 : p.1 = c
  · subst h1
    rw [if_pos rfl]
    show (assocFind (assocSet st.seen p.1 (getSeen st p.1 ++ p.2.1)) p.1).getD [] =
      getSeen st p.1 ++ p.2.1
    rw [assocFind_set_self]
    rfl
  · rw [if_neg h1]
    show (assocFind (assocSet st.seen p.1 (getSeen st p.1 ++ p.2.1)) c).getD [] = getSeen st c
    rw [assocFind_set_ne _ _ _ _ h1]
    rfl

/-- Committing never lowers any conversation's high-water mark. -/
theorem getHwm_commit_ge (ps : List (Str × (List Str × Int))) :
    ∀ (st : CkState) (c : Str), getHwm st c ≤ getHwm (commitState st ps) c := by
  induction ps with
  | nil => intro st c; exact le_refl _
  | cons p ps ih =>
    intro st c
    rw [commitState_cons]
    refine le_trans ?_ (ih (commitStep st p) c)
    rw [getHwm_commitStep]
    by_cases h1 : p.1 = c
    · subst h1
      by_cases h2 : p.2.2 > getHwm st p.1
      · rw [if_pos rfl, if_pos h2]; exact le_of_lt h2
      · rw [if_pos rfl, if_neg h2]
    · rw [if_neg h1]

/-- Committing never removes a message id from any seen set. -/
theorem getSeen_commit_mono (ps : List (Str × (List Str × Int))) :
    ∀ (st : CkState) (c : Str) (x : Str), x ∈ getSeen st c → x ∈ getSeen (commitState st ps) c := by
  induction ps with
  | nil => intro st c x hx; exact hx
  | cons p ps ih =>
    intro st c x hx
    rw [commitState_cons]
    refine ih (commitStep st p) c x ?_
    rw [getSeen_commitStep]
    by_cases h1 : p.1 = c
    · rw [if_pos h1]; exact List.mem_append_left _ hx
    · rw [if_neg h1]; exact hx

/-- A commit containing no entry for a conversation leaves that
conversation's checkpoint untouched. -/
theorem commit_preserve (ps : List (Str × (List Str × Int))) :
    ∀ (st : CkState) (c : Str), (∀ q ∈ ps, q.1 ≠ c) →
      getHwm (commitState st ps) c = getHwm st c ∧
      getSeen (commitState st ps) c = getSeen st c := by
  induction ps with
  | nil => intro st c _; exact ⟨rfl, rfl⟩
  | cons p ps ih =>
    intro st c hq
    rw [commitState_cons]
    have hp : p.1 ≠ c := hq p (List.mem_cons_self _ _)
    have hrest : ∀ q ∈ ps, q.1 ≠ c := fun q hqmem => hq q (List.mem_cons_of_mem _ hqmem)
    have h := ih (commitStep st p) c hrest
    rw [h.1, h.2, getHwm_commitStep, getSeen_commitStep, if_neg hp, if_neg hp]
    exact ⟨rfl, rfl⟩

/-! ### Theorems for claims C7 and C8. -/

/-- C7: for every present lastRegistrationDate, the computed next Saturday is
the first Saturday strictly after it (a Saturday weekday, strictly later,
at most seven days later, and minimal among later Saturdays); a Wednesday
yields that same week's Saturday (+3 days) and a Saturday yields the
Saturday seven days later; and with a prior registration the digest is
judged due exactly when today is on or after that computed Saturday. -/
theorem c7_scheduler_saturday (last today : Int) (sufficient : Bool) :
    (pyWeekday (nextSaturdayFrom last) = 5 ∧
      last < nextSaturdayFrom last ∧ nextSaturdayFrom last ≤ last + 7) ∧
    (∀ x : Int, last < x → pyWeekday x = 5 → nextSaturdayFrom last ≤ x) ∧
    (pyWeekday last = 2 → nextSaturdayFrom last = last + 3) ∧
    (pyWeekday last = 5 → nextSaturdayFrom last = last + 7) ∧
    (weeklyShouldCreate (some last) today sufficient = decide (today ≥ nextSaturdayFrom last)) := by
  unfold nextSaturdayFrom pyWeekday weeklyShouldCreate
  refine ⟨?_, ?_, ?_, ?_, rfl⟩
  · split <;> omega
  · intro x hx hw
    split <;> omega
  · intro h; split <;> omega
  · intro h; split <;> omega

/-- Witness for C7 at concrete dates: epoch day 6 (1970-01-07) is a
Wednesday and its next Saturday is 3 days later; epoch day 9 (1970-01-10)
is a Saturday and its next Saturday is 7 days later. -/
theorem c7_scheduler_saturday_witness :
    pyWeekday 6 = 2 ∧ nextSaturdayFrom 6 = 6 + 3 ∧
    pyWeekday 9 = 5 ∧ nextSaturdayFrom 9 = 9 + 7 := by
  refine ⟨by decide, (c7_scheduler_saturday 6 0 true).2.2.1 (by decide), by decide,
    (c7_scheduler_saturday 9 0 true).2.2.2.1 (by decide)⟩

/-- C8 counterexample: the weekly branch of `daily_chatgpt_summary.main`
persists today's date after a successful publish. With a prior
registration on epoch day 6 (a Wednesday) and today = 9 (the computed
next Saturday, so the digest is due), it saves 9 — today's date — while
the claim requires the Sunday following the computed next Saturday,
i.e. 10. -/
theorem c8_counterexample :
    weeklyRunDailySummary (some 6) 9 true true = some 9 ∧
    nextSaturdayFrom 6 + 1 = 10 ∧ (9 : Int) ≠ 10 := by decide

/-- C8 (amended): in the ingestion orchestrator `chatgpt_to_notion.main`,
after a successful weekly publish with a prior registration present, the
persisted lastRegistrationDate equals the filing date used, that filing
date is the Sunday following the computed next Saturday, and it does not
depend on today's date. -/
theorem c8_filing_commit (l today : Int) (sufficient : Bool)
    (hdue : today ≥ nextSaturdayFrom l) :
    weeklyRunMain (some l) today sufficient true = weeklyFilingDateMain (some l) today ∧
    weeklyFilingDateMain (some l) today = some (nextSaturdayFrom l + 1) ∧
    (∀ t : Int, weeklyFilingDateMain (some l) t = weeklyFilingDateMain (some l) today) := by
  refine ⟨?_, rfl, fun t => rfl⟩
  unfold weeklyRunMain weeklyShouldCreate weeklyFilingDateMain
  simp [hdue]

/-- Witness for C8 at a concrete schedule: prior registration on epoch
day 6, today = 9 (due), successful publish persists the Sunday 10. -/
theorem c8_filing_commit_witness :
    (9 : Int) ≥ nextSaturdayFrom 6 ∧
    weeklyRunMain (some 6) 9 true true = some (nextSaturdayFrom 6 + 1) := by
  refine ⟨by decide, ?_⟩
  have h := c8_filing_commit 6 9 true (by decide)
  rw [h.1, h.2.1]

/-! ### Claim C1: checkpoint committed only on a fully successful run. -/

/-- Field values of the run outcome when the publish loop reported a
failing day. -/
theorem runDailyAux_some_fields (st : CkState) (prog : List (Str × (List Str × Int)))
    (s : List Int) (a : List Int) (d : Int) :
    (runDailyAux st prog (s, some d, a)).state = st ∧
    (runDailyAux st prog (s, some d, a)).saved = false ∧
    (runDailyAux st prog (s, some d, a)).succDays = s ∧
    (runDailyAux st prog (s, some d, a)).failedDay = some d ∧
    (runDailyAux st prog (s, some d, a)).attempted = a := ⟨rfl, rfl, rfl, rfl, rfl⟩

/-- The `takeWhile`/`dropWhile` decomposition of a list. -/
theorem takeDropWhileAppend {α : Type} (p : α → Bool) :
    ∀ l : List α, l.takeWhile p ++ l.dropWhile p = l := by
  intro l
  induction l with
  | nil => rfl
  | cons x xs ih =>
    by_cases hx : p x
    · rw [List.takeWhile_cons_of_pos hx, List.dropWhile_cons_of_pos hx, List.cons_append, ih]
    · rw [List.takeWhile_cons_of_neg hx, List.dropWhile_cons_of_neg hx]; rfl

/-- Without a publish failure the outcome records no failing day. -/
theorem runDailyAux_none_failed (st : CkState) (prog : List (Str × (List Str × Int)))
    (s : List Int) (a : List Int) :
    (runDailyAux st prog (s, none, a)).failedDay = none := by
  by_cases hs : s = []
  · simp [runDailyAux, hs]
  · simp [runDailyAux, hs]

/-- With a publish failure the checkpoint is not saved. -/
theorem runDailyAux_saved_some (st : CkState) (prog : List (Str × (List Str × Int)))
    (s : List Int) (a : List Int) (d : Int) :
    (runDailyAux st prog (s, some d, a)).saved = false := rfl

/-- C1: the checkpoint is committed (`save_state` runs) only when no day's
publish failed; and the first publish failure leaves the checkpoint state
exactly as at the start of the run with no write, publishes exactly the
days before the first failing day, and attempts no day after it. -/
theorem c1_checkpoint_commit_gating (pub : Int → Bool) (convs : List Conv)
    (st : CkState) (fromDay today : Int) (maxChars : Nat) :
    ((runDaily pub convs st fromDay today maxChars).saved = true →
      (runDaily pub convs st fromDay today maxChars).failedDay = none ∧
      ∀ d ∈ sortInts ((buildDailyRaw convs st fromDay today maxChars).1.map Prod.fst),
        pub d = true) ∧
    (∀ d : Int, (runDaily pub convs st fromDay today maxChars).failedDay = some d →
      (runDaily pub convs st fromDay today maxChars).state = st ∧
      (runDaily pub convs st fromDay today maxChars).saved = false ∧
      (runDaily pub convs st fromDay today maxChars).succDays =
        (sortInts ((buildDailyRaw convs st fromDay today maxChars).1.map Prod.fst)).takeWhile pub ∧
      (runDaily pub convs st fromDay today maxChars).attempted =
        (sortInts ((buildDailyRaw convs st fromDay today maxChars).1.map Prod.fst)).takeWhile pub
          ++ [d] ∧
      pub d = false ∧
      ∃ rest, sortInts ((buildDailyRaw convs st fromDay today maxChars).1.map Prod.fst) =
        (sortInts ((buildDailyRaw convs st fromDay today maxChars).1.map Prod.fst)).takeWhile pub
          ++ d :: rest) := by
  unfold runDaily
  rw [publishLoop_eq]
  cases hdw : (sortInts ((buildDailyRaw convs st fromDay today maxChars).1.map Prod.fst)).dropWhile
      pub with
  | nil =>
    refine ⟨fun _ => ⟨runDailyAux_none_failed _ _ _ _, dropWhileNilAll pub _ hdw⟩, ?_⟩
    intro d hd
    rw [runDailyAux_none_failed] at hd
    cases hd
  | cons d0 rest =>
    constructor
    · intro hsaved
      rw [runDailyAux_saved_some] at hsaved
      cases hsaved
    · intro d hd
      have h5 := runDailyAux_some_fields st (buildDailyRaw convs st fromDay today maxChars).2
        ((sortInts ((buildDailyRaw convs st fromDay today maxChars).1.map Prod.fst)).takeWhile pub)
        ((sortInts ((buildDailyRaw convs st fromDay today maxChars).1.map Prod.fst)).takeWhile pub
          ++ [d0]) d0
      rw [h5.2.2.2.1] at hd
      have hdd : d0 = d := Option.some.inj hd
      subst hdd
      refine ⟨h5.1, h5.2.1, h5.2.2.1, h5.2.2.2.2, dropWhileHeadFalse pub _ _ _ hdw, rest, ?_⟩
      rw [← hdw]
      exact (takeDropWhileAppend pub _).symm

/-- Witness for C1: a one-day run whose only publish fails leaves the empty
checkpoint untouched, unsaved, and attempts only that day. -/
theorem c1_checkpoint_commit_gating_witness :
    (runDaily (fun _ => false) [convW] ⟨[], []⟩ 0 100 16000).state = (⟨[], []⟩ : CkState) ∧
    (runDaily (fun _ => false) [convW] ⟨[], []⟩ 0 100 16000).saved = false ∧
    (runDaily (fun _ => false) [convW] ⟨[], []⟩ 0 100 16000).attempted =
      (sortInts ((buildDailyRaw [convW] ⟨[], []⟩ 0 100 16000).1.map Prod.fst)).takeWhile
        (fun _ => false) ++ [1] := by
  have h := (c1_checkpoint_commit_gating (fun _ => false) [convW] ⟨[], []⟩ 0 100 16000).2 1
    (by decide)
  exact ⟨h.1, h.2.1, h.2.2.2.1⟩

/-! ### Claim C3: the per-event checkpoint filter. -/

/-- C3 counterexample: an event with a timestamp strictly above the
conversation's high-water mark but whose message id is in the seen set
satisfies the claim's filter, yet the code does not consider it for
bucketing — running the bucketer over a conversation holding exactly that
event yields no bucket and no progress. -/
theorem c3_counterexample :
    specC3Filter 5 [toStr "m"] (some 10) (toStr "m") = true ∧
    ckFilter 5 [toStr "m"] (some 10) (toStr "m") = false ∧
    iterMessages convC3 = [evC3] ∧
    buildDailyRaw [convC3] stC3 0 100 16000 = ([], []) := by decide

/-- C3 (amended): an event is considered for bucketing iff its timestamp is
absent or strictly greater than the high-water mark AND its message id is
not in the seen set (`ckFilter`); an event failing this filter leaves the
loop state untouched, and one passing it is bucketed whenever its day
survives the inception floor. -/
theorem c3_filter_characterization (fromDay today lastTs : Int) (seenSet : List Str)
    (bs : List (Int × List Str)) (ns : List Str) (m : Int) (e : Event) :
    (ckFilter lastTs seenSet e.ts e.mid = false →
      stepMsg fromDay today lastTs seenSet (bs, ns, m) e = (bs, ns, m)) ∧
    (ckFilter lastTs seenSet e.ts e.mid = true →
      stepMsg fromDay today lastTs seenSet (bs, ns, m) e =
        (match tsToDay e.ts fromDay today with
         | none => (bs, ns, m)
         | some day =>
           (bucketsAdd bs day (bucketLine e), insertNew ns e.mid, updMax e.ts m))) := by
  cases h1 : tsLeSkip e.ts lastTs with
  | true =>
    refine ⟨fun _ => ?_, fun ht => ?_⟩
    · unfold stepMsg; rw [h1]; rfl
    · exfalso; simp [ckFilter, h1] at ht
  | false =>
    cases h2 : seenSet.contains e.mid with
    | true =>
      refine ⟨fun _ => ?_, fun ht => ?_⟩
      · unfold stepMsg; rw [h1, h2]; rfl
      · exfalso
        simp [ckFilter, h1] at ht
        simp at h2
        exact ht h2
    | false =>
      refine ⟨fun hf => ?_, fun _ => ?_⟩
      · exfalso
        simp [ckFilter, h1] at hf
        simp at h2
        exact h2 hf
      · unfold stepMsg; rw [h1, h2]; rfl

/-- Witness for C3's characterization: the sample event fails the code's
filter (seen id), so the loop state is unchanged. -/
theorem c3_filter_characterization_witness :
    stepMsg 0 100 5 [toStr "m"] ([], [], 5) evC3 = ([], [], 5) :=
  (c3_filter_characterization 0 100 5 [toStr "m"] [] [] 5 evC3).1 (by decide)

/-! ### Claim C6: inception-floor exclusion. -/

/-- C6: an event whose timestamp converts (in JST) to a day strictly before
the inception floor leaves the bucketing loop's state exactly unchanged:
it is added to no day bucket, its id is not marked seen, and it does not
advance the conversation's observed maximum timestamp. -/
theorem c6_floor_drop (fromDay today lastTs : Int) (seenSet : List Str)
    (acc : List (Int × List Str) × List Str × Int) (e : Event) (t : Int)
    (hts : e.ts = some t) (hfloor : jstDayOf t < fromDay) :
    stepMsg fromDay today lastTs seenSet acc e = acc := by
  have hday : tsToDay e.ts fromDay today = none := by
    rw [hts]
    simp only [tsToDay, ite_eq_right_iff]
    intro h
    omega
  unfold stepMsg
  rw [hday]
  cases h1 : tsLeSkip e.ts lastTs <;> cases h2 : seenSet.contains e.mid <;> simp

/-- Witness for C6: the sample event on JST epoch day 0 against floor 5 is
dropped without any state change. -/
theorem c6_floor_drop_witness :
    stepMsg 5 100 (-1) [] ([], [], -1) evC6 = ([], [], -1) :=
  c6_floor_drop 5 100 (-1) [] ([], [], -1) evC6 0 rfl (by decide)

/-! ### Claim C10: monotonicity of the checkpoint commit. -/

/-- C10: committing a run's progress never lowers any conversation's
high-water mark, never removes a previously seen message id, and leaves
both untouched for every conversation that contributed no newly bucketed
message (i.e. has no progress entry). -/
theorem c10_commit_monotone (convs : List Conv) (st : CkState) (fromDay today : Int)
    (maxChars : Nat) :
    (∀ cid : Str, getHwm st cid ≤
      getHwm (commitState st (buildDailyRaw convs st fromDay today maxChars).2) cid) ∧
    (∀ cid x : Str, x ∈ getSeen st cid →
      x ∈ getSeen (commitState st (buildDailyRaw convs st fromDay today maxChars).2) cid) ∧
    (∀ cid : Str, assocFind (buildDailyRaw convs st fromDay today maxChars).2 cid = none →
      getHwm (commitState st (buildDailyRaw convs st fromDay today maxChars).2) cid =
        getHwm st cid ∧
      getSeen (commitState st (buildDailyRaw convs st fromDay today maxChars).2) cid =
        getSeen st cid) := by
  refine ⟨fun cid => getHwm_commit_ge _ st cid,
    fun cid x hx => getSeen_commit_mono _ st cid x hx, fun cid hnone => ?_⟩
  exact commit_preserve _ st cid ((assocFind_eq_none _ _).mp hnone)

/-- Witness for C10: committing the sample run's progress keeps the
high-water mark of its conversation monotone and leaves an uninvolved
conversation id untouched. -/
theorem c10_commit_monotone_witness :
    getHwm (⟨[], []⟩ : CkState) (toStr "c1") ≤
      getHwm (commitState ⟨[], []⟩ (buildDailyRaw [convW] ⟨[], []⟩ 0 100 16000).2)
        (toStr "c1") ∧
    getHwm (commitState ⟨[], []⟩ (buildDailyRaw [convW] ⟨[], []⟩ 0 100 16000).2) (toStr "zz") =
      getHwm (⟨[], []⟩ : CkState) (toStr "zz") := by
  have h := c10_commit_monotone [convW] ⟨[], []⟩ 0 100 16000
  exact ⟨h.1 (toStr "c1"), (h.2.2 (toStr "zz") (by decide)).1⟩

/-! ### Claim C4: synthesized message ids. -/

/-- C4 counterexample: in the `mapping` shape, two messages that agree on
(role, text, timestamp) and lack a source id receive different
synthesized ids (`mapping-` + node key), so the synthesized id is not a
function of (role, text, timestamp) alone. -/
theorem c4_counterexample :
    (iterMessages convC4).map (fun e => (e.role, e.text, e.ts)) =
      [(toStr "user", toStr "hi", some 5), (toStr "user", toStr "hi", some 5)] ∧
    (iterMessages convC4).map Event.mid = [toStr "mapping-n1", toStr "mapping-n2"] ∧
    toStr "mapping-n1" ≠ toStr "mapping-n2" := by decide

/-- A legacy event's id is its source id (when truthy) or the deterministic
synthesis from the event's own (role, text, timestamp). -/
theorem legacyEvent_mid (cid title : Str) (m : RawMsg) (e : Event)
    (h : legacyEvent cid title m = some e) :
    (∃ srcId : Str, pyTruthyS (some srcId) = true ∧ e.mid = srcId) ∨
    e.mid = toStr "legacy-" ++ intStr (pyHash3 e.role e.text e.ts) := by
  unfold legacyEvent at h
  split at h
  · cases h
  · split at h
    · cases h
    · have he := Option.some.inj h
      subst he
      cases hmid : m.mid with
      | none => right; simp [pyOrS, hmid]
      | some s =>
        by_cases hs : s.isEmpty
        · right; simp [pyOrS, hmid, hs]
        · left
          exact ⟨s, by simp [pyTruthyS, hs], by simp [pyOrS, hmid, hs]⟩

/-- A mapping-node event's id is its source id (when truthy) or
`mapping-` + the node's key. -/
theorem nodeEvent_mid (cid title : Str) (n : MapNode) (e : Event)
    (h : nodeEvent cid title n = some e) :
    (∃ srcId : Str, pyTruthyS (some srcId) = true ∧ e.mid = srcId) ∨
    e.mid = toStr "mapping-" ++ n.nodeId := by
  unfold nodeEvent at h
  split at h
  · cases h
  · rename_i msg hmsg
    split at h
    · cases h
    · split at h
      · cases h
      · split at h
        · cases h
        · split at h
          · cases h
          · have he := Option.some.inj h
            subst he
            cases hmid : msg.mid with
            | none => right; simp [pyOrS, hmid]
            | some s =>
              by_cases hs : s.isEmpty
              · right; simp [pyOrS, hmid, hs]
              · left
                exact ⟨s, by simp [pyTruthyS, hs], by simp [pyOrS, hmid, hs]⟩

/-- C4 (amended): every event of `iter_messages` carries either its
source-supplied (truthy) message id, or — when synthesized — in the
`mapping` shape the id `mapping-` + node key (a deterministic function of
the export's node key, not of (role, text, timestamp) alone), and in the
legacy shape the id `legacy-` + a deterministic function of the event's
own (role, text, timestamp), so equal (role, text, timestamp) triples
yield equal legacy ids across runs. -/
theorem c4_mid_synthesis (c : Conv) :
    ∀ e ∈ iterMessages c,
      (∃ srcId : Str, pyTruthyS (some srcId) = true ∧ e.mid = srcId) ∨
      (∃ ns : List MapNode, c.mapping = some ns ∧
        ∃ n ∈ ns, e.mid = toStr "mapping-" ++ n.nodeId) ∨
      e.mid = toStr "legacy-" ++ intStr (pyHash3 e.role e.text e.ts) := by
  intro e he
  unfold iterMessages at he
  split at he
  · rename_i nodes hm
    split at he
    · obtain ⟨msg, _, hev⟩ := List.mem_filterMap.mp he
      rcases legacyEvent_mid _ _ _ _ hev with h | h
      · exact Or.inl h
      · exact Or.inr (Or.inr h)
    · obtain ⟨n, hn, hev⟩ := List.mem_filterMap.mp he
      rcases nodeEvent_mid _ _ _ _ hev with h | h
      · exact Or.inl h
      · exact Or.inr (Or.inl ⟨nodes, hm, n, hn, h⟩)
  · obtain ⟨msg, _, hev⟩ := List.mem_filterMap.mp he
    rcases legacyEvent_mid _ _ _ _ hev with h | h
    · exact Or.inl h
    · exact Or.inr (Or.inr h)

/-- Witness for C4's amended rule at the sample conversation: the first
yielded event's id matches one of the three origin shapes. -/
theorem c4_mid_synthesis_witness :
    (∃ srcId : Str, pyTruthyS (some srcId) = true ∧ evC4.mid = srcId) ∨
    (∃ ns : List MapNode, convC4.mapping = some ns ∧
      ∃ n ∈ ns, evC4.mid = toStr "mapping-" ++ n.nodeId) ∨
    evC4.mid = toStr "legacy-" ++ intStr (pyHash3 evC4.role evC4.text evC4.ts) :=
  c4_mid_synthesis convC4 evC4 (by decide)

/-! ### Claim C9: renderer output on the sample input. -/

/-- C9: the input `"## Day\n**A:** x\nrest"` renders to exactly
[Heading(level 2, "Day"), spacer, spacer,
 Paragraph([bold "A:", plain " x\nrest"])], with exactly those span
boundaries. -/
theorem c9_renderer_blocks :
    markdownToNotionBlocks 1900 (toStr "## Day\n**A:** x\nrest") =
      [Block.heading 2 [Span.plain (toStr "Day")],
       Block.para [Span.plain []],
       Block.para [Span.plain []],
       Block.para [Span.bold (toStr "A:"), Span.plain (toStr " x\nrest")]] := by decide

/-! ### Claim C5: the batch segmenter. -/

/-- Dropping a prefix never lengthens a list. -/
theorem lenDropWhileLe {α : Type} (p : α → Bool) :
    ∀ s : List α, (List.dropWhile p s).length ≤ s.length := by
  intro s
  induction s with
  | nil => exact Nat.le_refl _
  | cons x xs ih =>
    by_cases hx : p x
    · rw [List.dropWhile_cons_of_pos hx]
      exact Nat.le_succ_of_le ih
    · rw [List.dropWhile_cons_of_neg hx]

/-- `dropWhile` over an append. -/
theorem dropWhileAppend {α : Type} (p : α → Bool) :
    ∀ s t : List α, List.dropWhile p (s ++ t) =
      if (List.dropWhile p s).isEmpty then List.dropWhile p t
      else List.dropWhile p s ++ t := by
  intro s t
  induction s with
  | nil => simp
  | cons x xs ih =>
    by_cases hx : p x
    · rw [List.cons_append, List.dropWhile_cons_of_pos hx, List.dropWhile_cons_of_pos hx, ih]
    · rw [List.cons_append, List.dropWhile_cons_of_neg hx, List.dropWhile_cons_of_neg hx]
      simp [List.isEmpty]

/-- Stripping never lengthens a string. -/
theorem pyStrip_length_le (s : Str) : (pyStrip s).length ≤ s.length := by
  have h1 := lenDropWhileLe pySpace ((List.dropWhile pySpace s).reverse)
  have h2 := lenDropWhileLe pySpace s
  simp only [pyStrip, List.length_reverse] at *
  omega

/-- The newline literal as a character list. -/
theorem toStr_nl : toStr "\n" = ['\n'] := rfl

/-- Stripping ignores a trailing whitespace character. -/
theorem pyStrip_snoc_space (s : Str) (c : Char) (hc : pySpace c = true) :
    pyStrip (s ++ [c]) = pyStrip s := by
  unfold pyStrip
  rw [dropWhileAppend]
  by_cases h : (List.dropWhile pySpace s).isEmpty
  · rw [if_pos h]
    have hds : List.dropWhile pySpace s = [] := by
      cases hx : List.dropWhile pySpace s with
      | nil => rfl
      | cons a as => rw [hx] at h; simp [List.isEmpty] at h
    have hc1 : List.dropWhile pySpace [c] = ([] : Str) := by
      rw [List.dropWhile_cons_of_pos hc]
      rfl
    rw [hc1, hds]
  · rw [if_neg h, List.reverse_append]
    simp only [List.reverse_cons, List.reverse_nil, List.nil_append, List.singleton_append]
    rw [List.dropWhile_cons_of_pos hc]

/-- `termJoin` over a cons. -/
theorem termJoin_cons (l : Str) (ls : List Str) :
    termJoin (l :: ls) = l ++ toStr "\n" ++ termJoin ls := by
  simp [termJoin, toStr_nl, List.append_assoc]

/-- `termJoin` over an append. -/
theorem termJoin_append (g1 g2 : List Str) :
    termJoin (g1 ++ g2) = termJoin g1 ++ termJoin g2 := by
  simp [termJoin]

/-- `termJoin` over a snoc. -/
theorem termJoin_snoc (g : List Str) (l : Str) :
    termJoin (g ++ [l]) = termJoin g ++ l ++ toStr "\n" := by
  rw [termJoin_append]
  simp [termJoin, toStr_nl, List.append_assoc]

/-- A split never yields the empty list of lines. -/
theorem splitLines_ne_nil : ∀ t : Str, splitLines t ≠ [] := by
  intro t
  cases t with
  | nil => simp [splitLines]
  | cons c rest =>
    simp only [splitLines]
    split
    · simp
    · split <;> simp

/-- Rejoining the split lines restores the text plus one trailing
newline. -/
theorem termJoin_splitLines : ∀ t : Str, termJoin (splitLines t) = t ++ toStr "\n" := by
  intro t
  induction t with
  | nil => rfl
  | cons c rest ih =>
    by_cases hc : c = '\n'
    · subst hc
      rw [show splitLines ('\n' :: rest) = [] :: splitLines rest from by simp [splitLines]]
      rw [termJoin_cons, ih]
      simp only [List.nil_append, toStr_nl, List.singleton_append, List.cons_append]
    · simp only [splitLines, if_neg hc]
      cases hsp : splitLines rest with
      | nil => exact absurd hsp (splitLines_ne_nil rest)
      | cons l ls =>
        rw [termJoin_cons]
        have ih' : l ++ toStr "\n" ++ termJoin ls = rest ++ toStr "\n" := by
          rw [← termJoin_cons, ← hsp]
          exact ih
        simp only [List.cons_append, List.append_assoc] at ih' ⊢
        rw [ih']

/-- Unpacking a true chunk-overflow condition. -/
theorem chunkCondTrue (maxC : Nat) (cc l : Str)
    (h : ((cc ++ l).length > maxC && !cc.isEmpty) = true) :
    (cc ++ l).length > maxC ∧ cc ≠ [] := by
  rw [Bool.and_eq_true] at h
  refine ⟨of_decide_eq_true h.1, ?_⟩
  intro hnil
  rw [hnil] at h
  simp [List.isEmpty] at h

/-- Unpacking a false chunk-overflow condition. -/
theorem chunkCondFalse (maxC : Nat) (cc l : Str)
    (h : ¬(((cc ++ l).length > maxC && !cc.isEmpty) = true)) :
    cc = [] ∨ (cc ++ l).length ≤ maxC := by
  cases hcc : cc with
  | nil => exact Or.inl rfl
  | cons a as =>
    right
    by_contra hlen
    apply h
    rw [Bool.and_eq_true]
    subst hcc
    refine ⟨decide_eq_true (by omega), by simp [List.isEmpty]⟩

/-- If the chunk loop emits nothing, the whole remaining text strips to
the empty string. -/
theorem splitChunksAux_empty (maxC : Nat) :
    ∀ (ls : List Str) (cc : Str), splitChunksAux maxC ls cc = [] →
      pyStrip (cc ++ termJoin ls) = [] := by
  intro ls
  induction ls with
  | nil =>
    intro cc h
    simp only [splitChunksAux] at h
    by_cases hs : (pyStrip cc).isEmpty = true
    · have hx : pyStrip cc = [] := by
        cases hy : pyStrip cc with
        | nil => rfl
        | cons a as => rw [hy] at hs; simp [List.isEmpty] at hs
      simpa [termJoin] using hx
    · rw [if_neg hs] at h; cases h
  | cons l ls ih =>
    intro cc h
    simp only [splitChunksAux] at h
    by_cases hcond : ((cc ++ l).length > maxC && !cc.isEmpty) = true
    · rw [if_pos hcond] at h; cases h
    · rw [if_neg hcond] at h
      have hrec := ih _ h
      rw [termJoin_cons]
      simpa [List.append_assoc] using hrec

/-- Every chunk the loop emits respects the threshold, provided every
input line does. -/
theorem splitChunksAux_len (maxC : Nat) :
    ∀ (ls : List Str) (cc : Str),
      (∀ l ∈ ls, l.length ≤ maxC) →
      (cc = [] ∨ ∃ y : Str, cc = y ++ toStr "\n" ∧ y.length ≤ maxC) →
      ∀ ch ∈ splitChunksAux maxC ls cc, ch.length ≤ maxC := by
  intro ls
  induction ls with
  | nil =>
    intro cc _ hinv ch hch
    simp only [splitChunksAux] at hch
    by_cases hs : (pyStrip cc).isEmpty = true
    · rw [if_pos hs] at hch; cases hch
    · rw [if_neg hs] at hch
      have hcheq : ch = pyStrip cc := List.mem_singleton.mp hch
      subst hcheq
      rcases hinv with rfl | ⟨y, rfl, hy⟩
      · simp [pyStrip]
      · rw [toStr_nl, pyStrip_snoc_space _ _ (by decide)]
        exact Nat.le_trans (pyStrip_length_le y) hy
  | cons l ls ih =>
    intro cc hls hinv ch hch
    have hl : l.length ≤ maxC := hls l (List.mem_cons_self _ _)
    have hls' : ∀ x ∈ ls, x.length ≤ maxC := fun x hx => hls x (List.mem_cons_of_mem _ hx)
    simp only [splitChunksAux] at hch
    by_cases hcond : ((cc ++ l).length > maxC && !cc.isEmpty) = true
    · rw [if_pos hcond] at hch
      rcases List.mem_cons.mp hch with rfl | hch'
      · rcases hinv with rfl | ⟨y, rfl, hy⟩
        · exact absurd rfl (chunkCondTrue maxC _ _ hcond).2
        · rw [toStr_nl, pyStrip_snoc_space _ _ (by decide)]
          exact Nat.le_trans (pyStrip_length_le y) hy
      · exact ih _ hls' (Or.inr ⟨l, rfl, hl⟩) ch hch'
    · rw [if_neg hcond] at hch
      have hinv' : cc ++ l ++ toStr "\n" = (cc ++ l) ++ toStr "\n" := rfl
      rcases chunkCondFalse maxC cc l hcond with rfl | hle
      · exact ih _ hls' (Or.inr ⟨l, by simp, by simpa using hl⟩) ch hch
      · exact ih _ hls' (Or.inr ⟨cc ++ l, hinv', hle⟩) ch hch

/-- Every chunk the loop emits is the strip of the terminated join of a
consecutive run of whole input lines (no line is split across chunks). -/
theorem splitChunksAux_aligned (maxC : Nat) :
    ∀ (ls : List Str) (g0 : List Str) (ch : Str),
      ch ∈ splitChunksAux maxC ls (termJoin g0) →
      ∃ pre g post, g0 ++ ls = pre ++ g ++ post ∧ ch = pyStrip (termJoin g) := by
  intro ls
  induction ls with
  | nil =>
    intro g0 ch hch
    simp only [splitChunksAux] at hch
    by_cases hs : (pyStrip (termJoin g0)).isEmpty = true
    · rw [if_pos hs] at hch; cases hch
    · rw [if_neg hs] at hch
      exact ⟨[], g0, [], by simp, List.mem_singleton.mp hch⟩
  | cons l ls ih =>
    intro g0 ch hch
    simp only [splitChunksAux] at hch
    by_cases hcond : ((termJoin g0 ++ l).length > maxC && !(termJoin g0).isEmpty) = true
    · rw [if_pos hcond] at hch
      rcases List.mem_cons.mp hch with rfl | hch'
      · exact ⟨[], g0, l :: ls, by simp, rfl⟩
      · have hc' : l ++ toStr "\n" = termJoin [l] := by
          simp [termJoin, toStr_nl]
        rw [hc'] at hch'
        obtain ⟨pre, g, post, hsplit, hcheq⟩ := ih [l] ch hch'
        refine ⟨g0 ++ pre, g, post, ?_, hcheq⟩
        have : g0 ++ (l :: ls) = g0 ++ ([l] ++ ls) := rfl
        rw [this, hsplit]
        simp [List.append_assoc]
    · rw [if_neg hcond] at hch
      have hc' : termJoin g0 ++ l ++ toStr "\n" = termJoin (g0 ++ [l]) := by
        rw [termJoin_snoc]
      rw [hc'] at hch
      obtain ⟨pre, g, post, hsplit, hcheq⟩ := ih (g0 ++ [l]) ch hch
      refine ⟨pre, g, post, ?_, hcheq⟩
      rw [show g0 ++ (l :: ls) = (g0 ++ [l]) ++ ls from by simp, hsplit]

/-- C5 counterexample: a day→text mapping whose combined day-prefixed text
has length 51 (> 50, the threshold the segmenter is given), yet the
segmenter issues exactly ONE summarizer call — refuting the claimed
"at least two calls" for over-threshold inputs. The trailing-newline
remainder of the loop strips to nothing, so no second chunk is emitted. -/
theorem c5_counterexample :
    (combinedText [(0, c5text)]).length = 51 ∧ (51 : Nat) > 50 ∧
    (segmentCallInputs 50 (combinedText [(0, c5text)])).length = 1 := by decide

/-- C5 (amended): for every day→text mapping with a non-empty combined
text: at most the threshold, exactly one summarizer call with the full
text; above the threshold, at least one call, every call input is the
strip of a consecutive run of whole lines (no line split), and — when
every line is within the threshold — no call's input exceeds the
threshold. -/
theorem c5_segmenter (maxC : Nat) (daily : List (Int × Str))
    (hne : pyStrip (combinedText daily) ≠ []) :
    ((combinedText daily).length ≤ maxC →
      segmentCallInputs maxC (combinedText daily) = [combinedText daily]) ∧
    ((combinedText daily).length > maxC →
      segmentCallInputs maxC (combinedText daily) ≠ [] ∧
      ∀ ch ∈ segmentCallInputs maxC (combinedText daily),
        ((∀ l ∈ splitLines (combinedText daily), l.length ≤ maxC) → ch.length ≤ maxC) ∧
        ∃ pre g post, splitLines (combinedText daily) = pre ++ g ++ post ∧
          ch = pyStrip (termJoin g)) := by
  have hneb : ¬((pyStrip (combinedText daily)).isEmpty = true) := by
    intro hx
    apply hne
    cases hy : pyStrip (combinedText daily) with
    | nil => rfl
    | cons a as => rw [hy] at hx; simp [List.isEmpty] at hx
  constructor
  · intro hle
    unfold segmentCallInputs
    rw [if_neg hneb, if_neg (by omega)]
  · intro hgt
    have hform : segmentCallInputs maxC (combinedText daily) =
        splitChunks maxC (combinedText daily) := by
      unfold segmentCallInputs
      rw [if_neg hneb, if_pos hgt]
    rw [hform]
    constructor
    · intro hnil
      apply hne
      have h0 := splitChunksAux_empty maxC (splitLines (combinedText daily)) [] hnil
      rw [List.nil_append, termJoin_splitLines, toStr_nl] at h0
      rw [← pyStrip_snoc_space (combinedText daily) '\n' (by decide)]
      exact h0
    · intro ch hch
      constructor
      · intro hlines
        exact splitChunksAux_len maxC (splitLines (combinedText daily)) [] hlines (Or.inl rfl)
          ch hch
      · have := splitChunksAux_aligned maxC (splitLines (combinedText daily)) [] ch hch
        simpa using this

/-- Witness for C5 at a concrete mapping and threshold 5: the combined text
`"\n## 0\nab\n"` (length 9 > 5, all lines within 5) is split into calls,
each within the threshold and line-aligned; and at threshold 100 the same
text is summarized in exactly one call. -/
theorem c5_segmenter_witness :
    ((combinedText [(0, toStr "ab")]).length > 5 ∧
      segmentCallInputs 5 (combinedText [(0, toStr "ab")]) ≠ [] ∧
      ∀ ch ∈ segmentCallInputs 5 (combinedText [(0, toStr "ab")]),
        ((∀ l ∈ splitLines (combinedText [(0, toStr "ab")]), l.length ≤ 5) → ch.length ≤ 5) ∧
        ∃ pre g post, splitLines (combinedText [(0, toStr "ab")]) = pre ++ g ++ post ∧
          ch = pyStrip (termJoin g)) ∧
    segmentCallInputs 100 (combinedText [(0, toStr "ab")]) = [combinedText [(0, toStr "ab")]] := by
  have h5 := c5_segmenter 5 [(0, toStr "ab")] (by decide)
  have h100 := c5_segmenter 100 [(0, toStr "ab")] (by decide)
  have hgt : (combinedText [(0, toStr "ab")]).length > 5 := by decide
  exact ⟨⟨hgt, (h5.2 hgt).1, (h5.2 hgt).2⟩, h100.1 (by decide)⟩

/-! ### Claim C2: idempotence of ingestion. -/

/-- Membership in an inserted seen set is preserved. -/
theorem insertNew_mono (ns : List Str) (x y : Str) (h : x ∈ ns) : x ∈ insertNew ns y := by
  unfold insertNew
  split
  · exact h
  · exact List.mem_append_left _ h

/-- The inserted id is a member of the seen set. -/
theorem insertNew_self (ns : List Str) (y : Str) : y ∈ insertNew ns y := by
  unfold insertNew
  split
  · rename_i h
    simpa using h
  · exact List.mem_append_right _ (List.mem_singleton.mpr rfl)

/-- One bucketing step under the passing conditions. -/
theorem stepMsg_bucket (fromDay today lastTs : Int) (seenSet : List Str)
    (acc : List (Int × List Str) × List Str × Int) (e : Event) (day : Int)
    (h1 : tsLeSkip e.ts lastTs = false) (h2 : seenSet.contains e.mid = false)
    (h3 : tsToDay e.ts fromDay today = some day) :
    stepMsg fromDay today lastTs seenSet acc e =
      (bucketsAdd acc.1 day (bucketLine e), insertNew acc.2.1 e.mid, updMax e.ts acc.2.2) := by
  unfold stepMsg
  rw [h1, h2, h3]
  simp

/-- A bucketing step never removes an id from the running seen set. -/
theorem stepMsg_ns_mono (fromDay today lastTs : Int) (seenSet : List Str)
    (acc : List (Int × List Str) × List Str × Int) (e : Event) (x : Str)
    (hx : x ∈ acc.2.1) : x ∈ (stepMsg fromDay today lastTs seenSet acc e).2.1 := by
  unfold stepMsg
  cases h1 : tsLeSkip e.ts lastTs <;> cases h2 : seenSet.contains e.mid <;>
    cases h3 : tsToDay e.ts fromDay today <;>
      simp [h1, h2, h3] <;>
        first
        | exact hx
        | exact insertNew_mono _ _ _ hx

/-- The bucketing loop never removes an id from the running seen set. -/
theorem procEvents_ns_mono (fromDay today lastTs : Int) (seenSet : List Str) :
    ∀ (evs : List Event) (acc : List (Int × List Str) × List Str × Int) (x : Str),
      x ∈ acc.2.1 → x ∈ (procEvents fromDay today lastTs seenSet evs acc).2.1 := by
  intro evs
  induction evs with
  | nil => intro acc x hx; exact hx
  | cons e es ih =>
    intro acc x hx
    exact ih _ x (stepMsg_ns_mono fromDay today lastTs seenSet acc e x hx)

/-- Run-one coverage: every event of the loop is either skipped for a
reason that persists into the next run (timestamp at or below the mark,
already seen, floor-dropped) or its id ends up in the loop's seen set. -/
theorem procEvents_cover (fromDay today lastTs : Int) (seenSet : List Str) :
    ∀ (evs : List Event) (acc : List (Int × List Str) × List Str × Int),
      ∀ e ∈ evs,
        SecondRunSkip lastTs seenSet fromDay e ∨
        e.mid ∈ (procEvents fromDay today lastTs seenSet evs acc).2.1 := by
  intro evs
  induction evs with
  | nil => intro acc e he; cases he
  | cons e0 es ih =>
    intro acc e he
    rcases List.mem_cons.mp he with rfl | he'
    · by_cases h1 : tsLeSkip e.ts lastTs = true
      · left; left
        cases hts : e.ts with
        | none => rw [hts] at h1; cases h1
        | some tt =>
          rw [hts] at h1
          exact ⟨tt, rfl, of_decide_eq_true h1⟩
      · have h1f : tsLeSkip e.ts lastTs = false := by simpa using h1
        by_cases h2 : seenSet.contains e.mid = true
        · left; right; left
          simpa using h2
        · have h2f : seenSet.contains e.mid = false := by
            cases hb : seenSet.contains e.mid
            · rfl
            · exact absurd hb h2
          cases h3 : tsToDay e.ts fromDay today with
          | none =>
            left; right; right
            cases hts : e.ts with
            | none => rw [hts] at h3; cases h3
            | some tt =>
              rw [hts] at h3
              simp only [tsToDay] at h3
              refine ⟨tt, rfl, ?_⟩
              by_cases hge : jstDayOf tt ≥ fromDay
              · rw [if_pos hge] at h3; cases h3
              · omega
          | some day =>
            right
            simp only [procEvents]
            rw [stepMsg_bucket fromDay today lastTs seenSet acc e day h1f h2f h3]
            exact procEvents_ns_mono fromDay today lastTs seenSet es _ e.mid
              (insertNew_self _ _)
    · rcases ih (stepMsg fromDay today lastTs seenSet acc e0) e he' with h | h
      · exact Or.inl h
      · right
        simp only [procEvents]
        exact h

/-- A skip-condition event leaves the bucketing loop state unchanged. -/
theorem stepMsg_skip (fromDay today hwm2 : Int) (seen2 : List Str)
    (acc : List (Int × List Str) × List Str × Int) (e : Event)
    (h : SecondRunSkip hwm2 seen2 fromDay e) :
    stepMsg fromDay today hwm2 seen2 acc e = acc := by
  rcases h with ⟨t, hts, hle⟩ | hmem | ⟨t, hts, hlt⟩
  · have h1 : tsLeSkip e.ts hwm2 = true := by
      rw [hts]
      exact decide_eq_true hle
    simp [stepMsg, h1]
  · cases h1 : tsLeSkip e.ts hwm2 with
    | true => simp [stepMsg, h1]
    | false =>
      have h2 : seen2.contains e.mid = true := by simpa using hmem
      unfold stepMsg
      rw [h1, h2]
      simp
  · have hday : tsToDay e.ts fromDay today = none := by
      rw [hts]
      simp only [tsToDay, ite_eq_right_iff]
      intro hge
      omega
    cases h1 : tsLeSkip e.ts hwm2 <;> cases h2 : seen2.contains e.mid <;>
      simp [stepMsg, h1, h2, hday]

/-- A run whose every event satisfies a skip condition is a no-op. -/
theorem procEvents_skip (fromDay today hwm2 : Int) (seen2 : List Str) :
    ∀ (evs : List Event) (bs : List (Int × List Str)),
      (∀ e ∈ evs, SecondRunSkip hwm2 seen2 fromDay e) →
      procEvents fromDay today hwm2 seen2 evs (bs, [], hwm2) = (bs, [], hwm2) := by
  intro evs
  induction evs with
  | nil => intro bs _; rfl
  | cons e es ih =>
    intro bs hall
    simp only [procEvents]
    rw [stepMsg_skip fromDay today hwm2 seen2 _ e (hall e (List.mem_cons_self _ _))]
    exact ih bs (fun x hx => hall x (List.mem_cons_of_mem _ hx))

/-- The `(new_seen, max_ts)` part of a bucketing step does not depend on
the buckets accumulated so far. -/
theorem stepMsg_snd (fromDay today lastTs : Int) (seenSet : List Str)
    (bs bs' : List (Int × List Str)) (ns : List Str) (m : Int) (e : Event) :
    (stepMsg fromDay today lastTs seenSet (bs, ns, m) e).2 =
    (stepMsg fromDay today lastTs seenSet (bs', ns, m) e).2 := by
  unfold stepMsg
  cases h1 : tsLeSkip e.ts lastTs <;> cases h2 : seenSet.contains e.mid <;>
    cases h3 : tsToDay e.ts fromDay today <;> simp [h1, h2, h3]

/-- The `(new_seen, max_ts)` part of the bucketing loop does not depend on
the buckets accumulated so far. -/
theorem procEvents_snd (fromDay today lastTs : Int) (seenSet : List Str) :
    ∀ (evs : List Event) (p q : List (Int × List Str) × List Str × Int), p.2 = q.2 →
      (procEvents fromDay today lastTs seenSet evs p).2 =
      (procEvents fromDay today lastTs seenSet evs q).2 := by
  intro evs
  induction evs with
  | nil => intro p q hpq; exact hpq
  | cons e es ih =>
    intro p q hpq
    simp only [procEvents]
    refine ih _ _ ?_
    obtain ⟨pb, pn, pm⟩ := p
    obtain ⟨qb, qn, qm⟩ := q
    simp only at hpq
    have hn : pn = qn := congrArg Prod.fst hpq
    have hm : pm = qm := congrArg Prod.snd hpq
    subst hn
    subst hm
    exact stepMsg_snd fromDay today lastTs seenSet pb qb pn pm e

/-- The progress part of `build_daily_raw`'s fold coincides with the
bucket-free progress fold. -/
theorem build_snd_eq (st : CkState) (fromDay today : Int) :
    ∀ (convs : List Conv) (bs : List (Int × List Str)) (pr : List (Str × (List Str × Int))),
      (convs.foldl (buildConvStep st fromDay today) (bs, pr)).2 =
      convs.foldl (progStep st fromDay today) pr := by
  intro convs
  induction convs with
  | nil => intro bs pr; rfl
  | cons c cs ih =>
    intro bs pr
    simp only [List.foldl_cons]
    have hP : (buildConvStep st fromDay today (bs, pr) c).2 =
        progStep st fromDay today pr c := by
      unfold buildConvStep progStep convProg
      dsimp only
      rw [procEvents_snd fromDay today (getHwm st (convIdOf c)) (getSeen st (convIdOf c))
        (iterMessages c) (bs, [], getHwm st (convIdOf c)) ([], [], getHwm st (convIdOf c)) rfl]
    calc (cs.foldl (buildConvStep st fromDay today) (buildConvStep st fromDay today (bs, pr) c)).2
        = (cs.foldl (buildConvStep st fromDay today)
            ((buildConvStep st fromDay today (bs, pr) c).1,
             (buildConvStep st fromDay today (bs, pr) c).2)).2 := rfl
      _ = cs.foldl (progStep st fromDay today) (buildConvStep st fromDay today (bs, pr) c).2 :=
            ih _ _
      _ = cs.foldl (progStep st fromDay today) (progStep st fromDay today pr c) := by rw [hP]

/-- The binding just set is a member of the updated association list. -/
theorem assocSet_mem_self {α : Type} (l : List (Str × α)) (k : Str) (v : α) :
    (k, v) ∈ assocSet l k v := by
  induction l with
  | nil => exact List.mem_singleton.mpr rfl
  | cons hd t ih =>
    obtain ⟨k', v'⟩ := hd
    by_cases hk : k' = k
    · simp only [assocSet, if_pos hk]
      exact List.mem_cons_self _ _
    · simp only [assocSet, if_neg hk]
      exact List.mem_cons_of_mem _ ih

/-- Updating one key preserves bindings of other keys. -/
theorem assocSet_mem_preserve {α : Type} (l : List (Str × α)) (k : Str) (v : α)
    (x : Str × α) (hx : x ∈ l) (hk : x.1 ≠ k) : x ∈ assocSet l k v := by
  induction l with
  | nil => cases hx
  | cons hd t ih =>
    obtain ⟨k', v'⟩ := hd
    rcases List.mem_cons.mp hx with rfl | hx'
    · by_cases hkk : k' = k
      · exact absurd hkk hk
      · simp only [assocSet, if_neg hkk]
        exact List.mem_cons_self _ _
    · by_cases hkk : k' = k
      · simp only [assocSet, if_pos hkk]
        exact List.mem_cons_of_mem _ hx'
      · simp only [assocSet, if_neg hkk]
        exact List.mem_cons_of_mem _ (ih hx')

/-- A progress binding whose key no later conversation shares survives the
rest of the progress fold. -/
theorem progFold_mem_preserve (st : CkState) (fromDay today : Int) :
    ∀ (convs : List Conv) (pr : List (Str × (List Str × Int))) (x : Str × (List Str × Int)),
      x ∈ pr → (∀ c ∈ convs, convIdOf c ≠ x.1) →
      x ∈ convs.foldl (progStep st fromDay today) pr := by
  intro convs
  induction convs with
  | nil => intro pr x hx _; exact hx
  | cons c cs ih =>
    intro pr x hx hk
    simp only [List.foldl_cons]
    refine ih _ x ?_ (fun c' hc' => hk c' (List.mem_cons_of_mem _ hc'))
    unfold progStep
    split
    · exact assocSet_mem_preserve _ _ _ x hx (fun h => hk c (List.mem_cons_self _ _) h.symm)
    · exact hx

/-- Under distinct conversation ids, each conversation with a non-empty
new-seen set contributes its own binding to the final progress map. -/
theorem progFold_mem (st : CkState) (fromDay today : Int) :
    ∀ (convs : List Conv) (pr : List (Str × (List Str × Int))) (conv : Conv),
      conv ∈ convs → (convs.map convIdOf).Nodup →
      (convProg st fromDay today conv).1 ≠ [] →
      (convIdOf conv, convProg st fromDay today conv) ∈
        convs.foldl (progStep st fromDay today) pr := by
  intro convs
  induction convs with
  | nil => intro pr conv hmem _ _; cases hmem
  | cons c cs ih =>
    intro pr conv hmem hnd hne
    have hnd' := List.nodup_cons.mp hnd
    simp only [List.foldl_cons]
    rcases List.mem_cons.mp hmem with rfl | hmem'
    · refine progFold_mem_preserve st fromDay today cs _ _ ?_ ?_
      · unfold progStep
        rw [if_pos hne]
        exact assocSet_mem_self _ _ _
      · intro c' hc' heq
        have heq' : convIdOf c' = convIdOf conv := heq
        exact hnd'.1 (heq' ▸ List.mem_map_of_mem convIdOf hc')
    · exact ih _ conv hmem' hnd'.2 hne

/-- Every id in a committed progress entry ends up in that conversation's
seen set. -/
theorem commit_seen_entry :
    ∀ (ps : List (Str × (List Str × Int))) (st : CkState) (c : Str) (ns : List Str) (m : Int),
      (c, (ns, m)) ∈ ps → ∀ x ∈ ns, x ∈ getSeen (commitState st ps) c := by
  intro ps
  induction ps with
  | nil => intro st c ns m hmem; cases hmem
  | cons p ps ih =>
    intro st c ns m hmem x hx
    rw [commitState_cons]
    rcases List.mem_cons.mp hmem with rfl | hmem'
    · refine getSeen_commit_mono ps _ _ x ?_
      rw [getSeen_commitStep]
      simp only [if_pos rfl]
      exact List.mem_append_right _ hx
    · exact ih _ c ns m hmem' x hx

/-- If every conversation's second-run bucketing loop is a no-op, the whole
fold of `build_daily_raw` is the identity on its accumulator. -/
theorem fold_run2_id (st2 : CkState) (fromDay today : Int) :
    ∀ (convs : List Conv) (bs : List (Int × List Str)) (pr : List (Str × (List Str × Int))),
      (∀ c ∈ convs, ∀ bs' : List (Int × List Str),
        procEvents fromDay today (getHwm st2 (convIdOf c)) (getSeen st2 (convIdOf c))
          (iterMessages c) (bs', [], getHwm st2 (convIdOf c)) =
          (bs', [], getHwm st2 (convIdOf c))) →
      convs.foldl (buildConvStep st2 fromDay today) (bs, pr) = (bs, pr) := by
  intro convs
  induction convs with
  | nil => intro bs pr _; rfl
  | cons c cs ih =>
    intro bs pr hall
    simp only [List.foldl_cons]
    have hc : buildConvStep st2 fromDay today (bs, pr) c = (bs, pr) := by
      unfold buildConvStep
      dsimp only
      rw [hall c (List.mem_cons_self _ _) bs]
      simp
    rw [hc]
    exact ih bs pr (fun c' hc' => hall c' (List.mem_cons_of_mem _ hc'))

/-- C2 counterexample: with two conversation records sharing one
conversation id, the second record's progress entry overwrites the
first's, so after a committed first run a second run over the same export
re-buckets the first record's message — the second run's day→text mapping
is not empty. -/
theorem c2_counterexample :
    convIdOf convDupA = convIdOf convDupB ∧
    (buildDailyRaw [convDupA, convDupB]
      (commitState ⟨[], []⟩ (buildDailyRaw [convDupA, convDupB] ⟨[], []⟩ 0 100 16000).2)
      0 100 16000).1 ≠ [] := by decide

/-- C2 (amended): for every export whose conversation records carry
pairwise distinct conversation ids, a committed first run makes a second
run over the same export produce an empty day→text mapping and empty
RunProgress (for any "today", including a later one), and the second run
performs no checkpoint write, leaving the checkpoint exactly as after the
first run. -/
theorem c2_second_run_empty (convs : List Conv) (st : CkState)
    (fromDay today1 today2 : Int) (maxChars : Nat)
    (hnd : (convs.map convIdOf).Nodup) :
    buildDailyRaw convs
      (commitState st (buildDailyRaw convs st fromDay today1 maxChars).2)
      fromDay today2 maxChars = ([], []) ∧
    ∀ pub : Int → Bool,
      (runDaily pub convs
        (commitState st (buildDailyRaw convs st fromDay today1 maxChars).2)
        fromDay today2 maxChars).state =
        commitState st (buildDailyRaw convs st fromDay today1 maxChars).2 ∧
      (runDaily pub convs
        (commitState st (buildDailyRaw convs st fromDay today1 maxChars).2)
        fromDay today2 maxChars).saved = false := by
  set p1 := (buildDailyRaw convs st fromDay today1 maxChars).2 with hp1
  set st2 := commitState st p1 with hst2
  have hp1eq : p1 = convs.foldl (progStep st fromDay today1) [] := by
    rw [hp1]
    unfold buildDailyRaw
    dsimp only
    exact build_snd_eq st fromDay today1 convs [] []
  have hskip : ∀ c ∈ convs, ∀ e ∈ iterMessages c,
      SecondRunSkip (getHwm st2 (convIdOf c)) (getSeen st2 (convIdOf c)) fromDay e := by
    intro c hc e he
    have h1 := procEvents_cover fromDay today1 (getHwm st (convIdOf c))
      (getSeen st (convIdOf c)) (iterMessages c) ([], [], getHwm st (convIdOf c)) e he
    rcases h1 with hsk | hns
    · rcases hsk with ⟨tt, hts, hle⟩ | hmem | hfl
      · exact Or.inl ⟨tt, hts, le_trans hle (getHwm_commit_ge p1 st _)⟩
      · exact Or.inr (Or.inl (getSeen_commit_mono p1 st _ _ hmem))
      · exact Or.inr (Or.inr hfl)
    · have hns' : e.mid ∈ (convProg st fromDay today1 c).1 := hns
      have hne : (convProg st fromDay today1 c).1 ≠ [] := by
        intro h0
        rw [h0] at hns'
        cases hns'
      have hmem2 := progFold_mem st fromDay today1 convs [] c hc hnd hne
      rw [← hp1eq] at hmem2
      exact Or.inr (Or.inl (commit_seen_entry p1 st (convIdOf c)
        (convProg st fromDay today1 c).1 (convProg st fromDay today1 c).2 hmem2 e.mid hns'))
  have hnoop : ∀ c ∈ convs, ∀ bs' : List (Int × List Str),
      procEvents fromDay today2 (getHwm st2 (convIdOf c)) (getSeen st2 (convIdOf c))
        (iterMessages c) (bs', [], getHwm st2 (convIdOf c)) =
        (bs', [], getHwm st2 (convIdOf c)) := by
    intro c hc bs'
    exact procEvents_skip fromDay today2 _ _ (iterMessages c) bs' (hskip c hc)
  have hbuild : buildDailyRaw convs st2 fromDay today2 maxChars = ([], []) := by
    unfold buildDailyRaw
    dsimp only
    rw [fold_run2_id st2 fromDay today2 convs [] [] hnoop]
    rfl
  refine ⟨hbuild, ?_⟩
  intro pub
  unfold runDaily
  rw [hbuild]
  exact ⟨rfl, rfl⟩

/-- Witness for C2 at a concrete one-conversation export: after committing
the first run, the second run is empty and writes nothing. -/
theorem c2_second_run_empty_witness :
    buildDailyRaw [convW]
      (commitState ⟨[], []⟩ (buildDailyRaw [convW] ⟨[], []⟩ 0 100 16000).2)
      0 200 16000 = ([], []) ∧
    (runDaily (fun _ => true) [convW]
      (commitState ⟨[], []⟩ (buildDailyRaw [convW] ⟨[], []⟩ 0 100 16000).2)
      0 200 16000).saved = false := by
  have h := c2_second_run_empty [convW] ⟨[], []⟩ 0 100 200 16000 (by decide)
  exact ⟨h.1, (h.2 (fun _ => true)).2⟩
